import Mathlib

/-!
Verification of a lazy asynchronous computation-DAG engine.

The data model and executor are embedded shallowly:

* `Result` mirrors `Ok`/`Err` from `core.ts`; the `errorTask` reference of an
  `Err` is the identity token (`Nat`) of the blamed task node.
* `Node` mirrors a `Task` node: label, ordered dependency list (by identity)
  and the user compute function.  The user function returns `Except E V`;
  the wrapper installed by `task` in `core.ts` (which hands the user the
  `ok`/`err` helpers and binds the node itself as error origin) is `wrap` /
  `callCompute`.
* `RunState` models the per-node mutable execution cache of `run.ts`
  (`_result` as `cache`, the `_promise` in-flight marker as `inflight`)
  plus a ghost `log` of the compute invocations that actually happened.
* `run` is the executor of `run.ts`, embedded as deterministic sequential
  state passing (the cooperative single-threaded interpretation the design
  admits); `fuel` bounds recursion depth, since cyclic graphs make the
  original program hang.  A fuel-exhausted (or self-awaiting) execution
  returns `none`, mirroring a run that never settles.
* `allNode` mirrors `all` from `all.ts`, `getTrace` mirrors the trace
  utility, pushed labels and all.
-/

namespace TinyTaskDag

/-- Result of a computation that can succeed or fail: `Ok {value}` or
`Err {error, errorTask}`, with `errorTask` the identity of the blamed node. -/
inductive Result (E V : Type) : Type where
  | ok (value : V) : Result E V
  | err (error : E) (errorTask : Nat) : Result E V
deriving DecidableEq

/-- The `ok` field / tag of a result. -/
def Result.isOk {E V : Type} : Result E V → Bool
  | .ok _ => true
  | .err _ _ => false

/-- A task node: diagnostic label, ordered dependency list (identities of the
dependency nodes) and the user-supplied compute function.  `Except.error e`
models the user returning `err(e)` through the helper handed over by `task`. -/
structure Node (E V : Type) : Type where
  label : String
  deps : List Nat
  compute : List V → Except E V

/-- A graph assigns nodes to identity tokens (association list, so that the
set of nodes is finite). -/
abbrev Graph (E V : Type) : Type := List (Nat × Node E V)

/-- Look a node up by its identity. -/
def findNode {E V : Type} (g : Graph E V) (n : Nat) : Option (Node E V) :=
  (List.find? (fun p => p.1 == n) g).map Prod.snd

/-- Mutable execution state: per-node settled cache (`_result`), in-flight
markers (`_promise`) and the ghost log of compute invocations
`(node, arguments, wrapped result)`, newest first. -/
structure RunState (E V : Type) : Type where
  cache : Nat → Option (Result E V)
  inflight : List Nat
  log : List (Nat × List V × Result E V)

/-- The state before any execution: empty caches, nothing in flight. -/
def initState {E V : Type} : RunState E V := ⟨fun _ => none, [], []⟩

/-- The wrapper `task` installs in `core.ts`: an `ok` value stays `Ok`, an
error produced through the node's `err` helper is tagged with the node itself
as `errorTask`. -/
def wrap {E V : Type} (id : Nat) : Except E V → Result E V
  | .ok v => .ok v
  | .error e => .err e id

/-- Invoke a node's compute function on resolved dependency values, recording
the invocation in the ghost log. -/
def callCompute {E V : Type} (nd : Node E V) (id : Nat) (args : List V)
    (s : RunState E V) : Result E V × RunState E V :=
  (wrap id (nd.compute args),
   { s with log := (id, args, wrap id (nd.compute args)) :: s.log })

/-- The public `ok` constructor from `core.ts`. -/
def ok {E V : Type} (v : V) : Result E V := .ok v

/-- The public `err` constructor from `core.ts`, re-exported by `index.ts`:
the caller passes the task to blame. -/
def err {E V : Type} (taskId : Nat) (e : E) : Result E V := .err e taskId

/-- The synchronous fast path of `executeTask`: scan the dependencies in
declaration order and return the first already-settled `Err`, if any. -/
def firstCachedErr {E V : Type} (s : RunState E V) : List Nat → Option (Result E V)
  | [] => none
  | d :: ds =>
    match s.cache d with
    | some r => if r.isOk then firstCachedErr s ds else some r
    | none => firstCachedErr s ds

/-- First non-`Ok` entry of a result list (the winner of the fail-fast race
under deterministic sequential scheduling). -/
def firstErrResult {E V : Type} : List (Result E V) → Option (Result E V)
  | [] => none
  | r :: rs => if r.isOk then firstErrResult rs else some r

/-- Extract the values of the `Ok` results (`allResults.map(r => r.value)`). -/
def okVals {E V : Type} : List (Result E V) → List V
  | [] => []
  | .ok v :: rs => v :: okVals rs
  | .err _ _ :: rs => okVals rs

/-- Collect dependency outcomes; `none` (a run that never settled) poisons
the whole list, like awaiting a hung promise. -/
def seqResults {E V : Type} : List (Option (Result E V)) → Option (List (Result E V))
  | [] => some []
  | o :: os => o.bind fun r => (seqResults os).map fun rs => r :: rs

/-- Launch `step` (the executor) on every dependency in declaration order,
threading the execution state; every dependency is started, none is
cancelled. -/
def runDepsWith {E V : Type}
    (step : Nat → RunState E V → Option (Result E V) × RunState E V) :
    List Nat → RunState E V → List (Option (Result E V)) × RunState E V
  | [], s => ([], s)
  | d :: ds, s =>
    ((step d s).1 :: (runDepsWith step ds (step d s).2).1,
     (runDepsWith step ds (step d s).2).2)

/-- `executeTask` from `run.ts`: zero dependencies compute directly; otherwise
check for an already-cached dependency error, else run all dependencies,
return the first error if any, and otherwise compute on the ordered values. -/
def executeTask {E V : Type}
    (step : Nat → RunState E V → Option (Result E V) × RunState E V)
    (nd : Node E V) (id : Nat) (s : RunState E V) :
    Option (Result E V) × RunState E V :=
  match nd.deps with
  | [] =>
    (some (callCompute nd id [] s).1, (callCompute nd id [] s).2)
  | _ :: _ =>
    match firstCachedErr s nd.deps with
    | some r => (some r, s)
    | none =>
      match seqResults (runDepsWith step nd.deps s).1 with
      | none => (none, (runDepsWith step nd.deps s).2)
      | some rs =>
        match firstErrResult rs with
        | some r => (some r, (runDepsWith step nd.deps s).2)
        | none =>
          (some (callCompute nd id (okVals rs) (runDepsWith step nd.deps s).2).1,
           (callCompute nd id (okVals rs) (runDepsWith step nd.deps s).2).2)

/-- One layer of `run` from `run.ts`: settled-cache fast path, in-flight fast
path (awaiting a promise already on the current chain never settles), then
start execution — marking the node in flight first — and finally write the
settled result exactly once. -/
def runStep {E V : Type} (g : Graph E V)
    (step : Nat → RunState E V → Option (Result E V) × RunState E V)
    (id : Nat) (s : RunState E V) : Option (Result E V) × RunState E V :=
  match s.cache id with
  | some r => (some r, s)
  | none =>
    if id ∈ s.inflight then (none, s)
    else
      match findNode g id with
      | none => (none, s)
      | some nd =>
        match executeTask step nd id { s with inflight := id :: s.inflight } with
        | (none, s1) => (none, s1)
        | (some r, s1) =>
          (some r, { s1 with cache := fun j => if j = id then some r else s1.cache j })

/-- The executor `run`, with `fuel` bounding the recursion depth (the source
relies on the graph being acyclic; exhausted fuel models a hung execution). -/
def run {E V : Type} (g : Graph E V) :
    Nat → Nat → RunState E V → Option (Result E V) × RunState E V
  | 0 => fun _ s => (none, s)
  | fuel + 1 => fun id s => runStep g (run g fuel) id s

/-- A sequence of executor invocations `(fuel, node)` from a given state. -/
def runSeq {E V : Type} (g : Graph E V) :
    List (Nat × Nat) → RunState E V → RunState E V
  | [], s => s
  | c :: cs, s => runSeq g cs (run g c.1 c.2 s).2

/-- Number of recorded invocations of a node's compute function. -/
def computeCount {E V : Type} (n : Nat) (s : RunState E V) : Nat :=
  (s.log.filter (fun en => en.1 = n)).length

/-- Value universe used for the `all` combinator: the composed task returns
the dependency values as an ordered tuple. -/
inductive Val : Type where
  | base : Nat → Val
  | list : List Val → Val

/-- The `all` combinator from `all.ts`: a task whose dependency list is
exactly the given tasks and whose compute forwards the already-resolved
values as an ordered tuple `Ok` result. -/
def allNode {E : Type} (label : String) (ds : List Nat) : Node E Val :=
  { label := label, deps := ds, compute := fun vs => Except.ok (Val.list vs) }

/-- How execution states evolve: caches only grow (write-once), in-flight
markers only grow, the log only gains entries, and the cache of a node that
is currently in flight is never touched by anyone else. -/
structure Evolves {E V : Type} (s t : RunState E V) : Prop where
  mono_cache : ∀ n r, s.cache n = some r → t.cache n = some r
  mono_inflight : ∀ n, n ∈ s.inflight → n ∈ t.inflight
  log_app : ∃ L, t.log = L ++ s.log
  frozen : ∀ n, n ∈ s.inflight → t.cache n = s.cache n

/-- No log entry owned by `x` is added between two states. -/
def KeepsLog {E V : Type} (x : Nat) (s t : RunState E V) : Prop :=
  ∃ L, t.log = L ++ s.log ∧ ∀ en ∈ L, en.1 ≠ x

/-- Well-formed execution states: every node's compute has run at most once,
and a node whose compute has run is either settled or currently in flight. -/
def WF {E V : Type} (s : RunState E V) : Prop :=
  ∀ n, computeCount n s ≤ 1 ∧
    (1 ≤ computeCount n s → (s.cache n).isSome = true ∨ n ∈ s.inflight)

/-- `Edge g n d`: node `n` declares `d` among its dependencies. -/
def Edge {E V : Type} (g : Graph E V) (n d : Nat) : Prop :=
  ∃ nd, findNode g n = some nd ∧ d ∈ nd.deps

/-- Reachability along dependency edges (reflexive-transitive). -/
inductive Reach {E V : Type} (g : Graph E V) : Nat → Nat → Prop where
  | refl (n : Nat) : Reach g n n
  | step {n d m : Nat} : Edge g n d → Reach g d m → Reach g n m

/-- A result observed at node `n` is provenance-sound: if it is an `Err`, the
blamed node is an ancestor of `n` and its own compute function produces
exactly that error payload. -/
def ResultSound {E V : Type} (g : Graph E V) (n : Nat) (r : Result E V) : Prop :=
  ∀ e t, r = .err e t →
    Reach g n t ∧ ∃ nd args, findNode g t = some nd ∧ nd.compute args = Except.error e

/-- Every cached result is provenance-sound for the node it is cached at. -/
def CacheSound {E V : Type} (g : Graph E V) (s : RunState E V) : Prop :=
  ∀ n r, s.cache n = some r → ResultSound g n r

/-! ### Graph introspection (`getTrace` from the trace utility) -/

/-- The label of a node, for relating traces to identities. -/
def labelOf {E V : Type} (g : Graph E V) (n : Nat) : String :=
  match findNode g n with
  | some nd => nd.label
  | none => ""

/-- Depth-first traversal of a dependency list, threading the visited set and
the accumulated path. -/
def traverseListWith {A : Type} (step : Nat → List Nat × List A → List Nat × List A) :
    List Nat → List Nat × List A → List Nat × List A
  | [], vp => vp
  | d :: ds, vp => traverseListWith step ds (step d vp)

/-- One layer of `getTrace`'s inner `traverse`: skip if already visited, mark
visited, traverse dependencies first, then append this node's label. -/
def traverseStep {E V : Type} (g : Graph E V)
    (step : Nat → List Nat × List String → List Nat × List String)
    (t : Nat) (vp : List Nat × List String) : List Nat × List String :=
  if t ∈ vp.1 then vp
  else
    match findNode g t with
    | none => (t :: vp.1, vp.2)
    | some nd =>
      ((traverseListWith step nd.deps (t :: vp.1, vp.2)).1,
       (traverseListWith step nd.deps (t :: vp.1, vp.2)).2 ++ [nd.label])

/-- The recursive `traverse` of the trace utility (fuel-bounded). -/
def traverse {E V : Type} (g : Graph E V) :
    Nat → Nat → List Nat × List String → List Nat × List String
  | 0 => fun _ vp => vp
  | f + 1 => fun t vp => traverseStep g (traverse g f) t vp

/-- `getTrace`: topologically sorted list of reachable task labels. -/
def getTrace {E V : Type} (g : Graph E V) (fuel root : Nat) : List String :=
  (traverse g fuel root ([], [])).2

/-- Ghost twin of `traverseStep` accumulating identities instead of labels. -/
def traverseIdsStep {E V : Type} (g : Graph E V)
    (step : Nat → List Nat × List Nat → List Nat × List Nat)
    (t : Nat) (vp : List Nat × List Nat) : List Nat × List Nat :=
  if t ∈ vp.1 then vp
  else
    match findNode g t with
    | none => (t :: vp.1, vp.2)
    | some nd =>
      ((traverseListWith step nd.deps (t :: vp.1, vp.2)).1,
       (traverseListWith step nd.deps (t :: vp.1, vp.2)).2 ++ [t])

/-- Ghost twin of `traverse` over identities. -/
def traverseIds {E V : Type} (g : Graph E V) :
    Nat → Nat → List Nat × List Nat → List Nat × List Nat
  | 0 => fun _ vp => vp
  | f + 1 => fun t vp => traverseIdsStep g (traverseIds g f) t vp

/-- The identity-level trace. -/
def traceIds {E V : Type} (g : Graph E V) (fuel root : Nat) : List Nat :=
  (traverseIds g fuel root ([], [])).2

/-- The set of identities carrying nodes in the graph. -/
def graphKeys {E V : Type} (g : Graph E V) : Finset Nat :=
  (g.map Prod.fst).toFinset

/-- Number of graph identities not yet visited (the DFS termination measure). -/
def freshCount {E V : Type} (g : Graph E V) (v : List Nat) : Nat :=
  ((graphKeys g).filter (fun k => k ∉ v)).card

/-- Every declared dependency of every node is itself present in the graph. -/
abbrev ClosedGraph {E V : Type} (g : Graph E V) : Prop :=
  ∀ p ∈ g, ∀ d ∈ p.2.deps, (findNode g d).isSome = true

/-- The dependency relation admits no cycle. -/
def Acyclic {E V : Type} (g : Graph E V) : Prop :=
  ∀ n d, Edge g n d → ¬ Reach g d n

/-- A decidable sufficient criterion for acyclicity: every dependency has a
smaller identity than its dependent. -/
abbrev DepsDecreasing {E V : Type} (g : Graph E V) : Prop :=
  ∀ p ∈ g, ∀ d ∈ p.2.deps, d < p.1

/-- A list of node identities is in topological order: every dependency of
every listed node appears at an earlier position. -/
def TopoOk {E V : Type} (g : Graph E V) (p : List Nat) : Prop :=
  ∀ (i : Nat) (hi : i < p.length) (nd : Node E V),
    findNode g (p.get ⟨i, hi⟩) = some nd → ∀ d ∈ nd.deps,
      ∃ (j : Nat) (hj : j < p.length), j < i ∧ p.get ⟨j, hj⟩ = d

/-- Invariant of the depth-first traversal: the emitted path is duplicate
free, contained in the visited set, topologically ordered, and mentions only
nodes present in the graph. -/
abbrev DfsInv {E V : Type} (g : Graph E V) (v p : List Nat) : Prop :=
  p.Nodup ∧ (∀ x ∈ p, x ∈ v) ∧ TopoOk g p ∧ (∀ x ∈ p, (findNode g x).isSome = true)

/-! ### Concrete graphs, taken from the package's test suite -/

/-- Binary sum compute (`(a, b) => ok(a + b)`). -/
def add2 : List Nat → Except String Nat
  | [x, y] => .ok (x + y)
  | _ => .error "arity"

/-- Doubling compute (`a => ok(a * 2)`). -/
def dbl : List Nat → Except String Nat
  | [x] => .ok (2 * x)
  | _ => .error "arity"

/-- Tripling compute (`a => ok(a * 3)`). -/
def tpl : List Nat → Except String Nat
  | [x] => .ok (3 * x)
  | _ => .error "arity"

/-- The diamond of the memoization test: `a = ok 10`, `b = a*2`, `c = a*3`,
`d = b + c`; identities 0, 1, 2, 3. -/
def gDiamond : Graph String Nat :=
  [ (0, ⟨"a", [], fun _ => .ok 10⟩)
  , (1, ⟨"b", [0], dbl⟩)
  , (2, ⟨"c", [0], tpl⟩)
  , (3, ⟨"d", [1, 2], add2⟩) ]

/-- A failing chain: node 0 errs with `"boom"`, 1 depends on 0, 2 on 1. -/
def gChain : Graph String Nat :=
  [ (0, ⟨"a", [], fun _ => .error "boom"⟩)
  , (1, ⟨"b", [0], dbl⟩)
  , (2, ⟨"c", [1], dbl⟩) ]

/-- Two failing ancestors under one dependent. -/
def gTwoErr : Graph String Nat :=
  [ (0, ⟨"a1", [], fun _ => .error "e1"⟩)
  , (1, ⟨"a2", [], fun _ => .error "e2"⟩)
  , (2, ⟨"d", [0, 1], add2⟩) ]

/-- Two leaves composed by `all`. -/
def gAll : Graph String Val :=
  [ (0, ⟨"x", [], fun _ => .ok (.base 1)⟩)
  , (1, ⟨"y", [], fun _ => .ok (.base 2)⟩)
  , (2, allNode "pair" [0, 1]) ]

/-- An empty composition: `all("empty", [])`. -/
def gAllEmpty : Graph String Val := [(0, allNode "empty" [])]

/-- A diamond with a repeated label for the trace claim. -/
def gTrace : Graph String Nat :=
  [ (0, ⟨"a", [], fun _ => .ok 1⟩)
  , (1, ⟨"b", [0], dbl⟩)
  , (2, ⟨"b", [0], tpl⟩)
  , (3, ⟨"d", [1, 2], add2⟩) ]

/-! ### State evolution: write-once caches, append-only log -/

theorem Evolves.rfl {E V : Type} (s : RunState E V) : Evolves s s :=
  ⟨fun _ _ h => h, fun _ h => h, ⟨[], by simp⟩, fun _ _ => by simp⟩

theorem Evolves.trans {E V : Type} {s t u : RunState E V}
    (h1 : Evolves s t) (h2 : Evolves t u) : Evolves s u := by
  refine ⟨fun n r h => h2.mono_cache n r (h1.mono_cache n r h),
          fun n h => h2.mono_inflight n (h1.mono_inflight n h), ?_,
          fun n h => by rw [h2.frozen n (h1.mono_inflight n h), h1.frozen n h]⟩
  obtain ⟨L1, e1⟩ := h1.log_app
  obtain ⟨L2, e2⟩ := h2.log_app
  exact ⟨L2 ++ L1, by rw [e2, e1, List.append_assoc]⟩

theorem keepsLog_rfl {E V : Type} (x : Nat) (s : RunState E V) : KeepsLog x s s :=
  ⟨[], by simp⟩

theorem keepsLog_trans {E V : Type} {x : Nat} {s t u : RunState E V}
    (h1 : KeepsLog x s t) (h2 : KeepsLog x t u) : KeepsLog x s u := by
  obtain ⟨L1, e1, f1⟩ := h1
  obtain ⟨L2, e2, f2⟩ := h2
  refine ⟨L2 ++ L1, by rw [e2, e1, List.append_assoc], ?_⟩
  intro en hen
  rcases List.mem_append.mp hen with h | h
  · exact f2 en h
  · exact f1 en h

theorem callCompute_evolves {E V : Type} (nd : Node E V) (id : Nat) (args : List V)
    (s : RunState E V) : Evolves s (callCompute nd id args s).2 :=
  ⟨fun _ _ h => h, fun _ h => h, ⟨[(id, args, wrap id (nd.compute args))], by simp [callCompute]⟩,
   fun _ _ => by simp [callCompute]⟩

theorem callCompute_keepsLog {E V : Type} {nd : Node E V} {id x : Nat} {args : List V}
    {s : RunState E V} (hx : x ≠ id) : KeepsLog x s (callCompute nd id args s).2 := by
  refine ⟨[(id, args, wrap id (nd.compute args))], by simp [callCompute], ?_⟩
  intro en hen
  simp only [List.mem_singleton] at hen
  subst hen
  simpa using fun h => hx h.symm

theorem runDepsWith_evolves {E V : Type}
    {step : Nat → RunState E V → Option (Result E V) × RunState E V}
    (hEv : ∀ d s, Evolves s (step d s).2) :
    ∀ (ds : List Nat) (s : RunState E V), Evolves s (runDepsWith step ds s).2 := by
  intro ds
  induction ds with
  | nil => intro s; exact Evolves.rfl s
  | cons d ds ih =>
    intro s
    simp only [runDepsWith]
    exact Evolves.trans (hEv d s) (ih (step d s).2)

theorem runDepsWith_keepsLog {E V : Type}
    {step : Nat → RunState E V → Option (Result E V) × RunState E V} {x : Nat}
    (hEv : ∀ d s, Evolves s (step d s).2)
    (hKL : ∀ d s, x ∈ s.inflight → KeepsLog x s (step d s).2) :
    ∀ (ds : List Nat) (s : RunState E V), x ∈ s.inflight →
      KeepsLog x s (runDepsWith step ds s).2 := by
  intro ds
  induction ds with
  | nil => intro s _; exact keepsLog_rfl x s
  | cons d ds ih =>
    intro s hx
    simp only [runDepsWith]
    exact keepsLog_trans (hKL d s hx) (ih (step d s).2 ((hEv d s).mono_inflight x hx))

theorem executeTask_evolves {E V : Type}
    {step : Nat → RunState E V → Option (Result E V) × RunState E V}
    (hEv : ∀ d s, Evolves s (step d s).2)
    (nd : Node E V) (id : Nat) (s : RunState E V) :
    Evolves s (executeTask step nd id s).2 := by
  unfold executeTask
  split
  · exact callCompute_evolves nd id [] s
  · split
    · exact Evolves.rfl s
    · split
      · exact runDepsWith_evolves hEv nd.deps s
      · split
        · exact runDepsWith_evolves hEv nd.deps s
        · exact Evolves.trans (runDepsWith_evolves hEv nd.deps s)
            (callCompute_evolves nd id _ _)

theorem executeTask_keepsLog {E V : Type}
    {step : Nat → RunState E V → Option (Result E V) × RunState E V}
    {x : Nat} {nd : Node E V} {id : Nat} {s : RunState E V}
    (hEv : ∀ d s, Evolves s (step d s).2)
    (hKL : ∀ d s, x ∈ s.inflight → KeepsLog x s (step d s).2)
    (hx : x ∈ s.inflight) (hxid : x ≠ id) :
    KeepsLog x s (executeTask step nd id s).2 := by
  unfold executeTask
  split
  · exact callCompute_keepsLog hxid
  · split
    · exact keepsLog_rfl x s
    · split
      · exact runDepsWith_keepsLog hEv hKL nd.deps s hx
      · split
        · exact runDepsWith_keepsLog hEv hKL nd.deps s hx
        · exact keepsLog_trans (runDepsWith_keepsLog hEv hKL nd.deps s hx)
            (callCompute_keepsLog hxid)

theorem runStep_evolves {E V : Type} {g : Graph E V}
    {step : Nat → RunState E V → Option (Result E V) × RunState E V}
    (hEv : ∀ d s, Evolves s (step d s).2)
    (id : Nat) (s : RunState E V) : Evolves s (runStep g step id s).2 := by
  unfold runStep
  split
  · exact Evolves.rfl s
  next hc =>
    split
    · exact Evolves.rfl s
    next hin =>
      split
      · exact Evolves.rfl s
      next nd hg =>
        have hev0 : Evolves s { s with inflight := id :: s.inflight } :=
          ⟨fun _ _ h => h, fun n h => List.mem_cons_of_mem _ h, ⟨[], by simp⟩,
           fun _ _ => rfl⟩
        split
        next s1 heq =>
          have h1 := executeTask_evolves hEv nd id { s with inflight := id :: s.inflight }
          rw [heq] at h1
          exact Evolves.trans hev0 h1
        next r s1 heq =>
          have h1 := executeTask_evolves hEv nd id { s with inflight := id :: s.inflight }
          rw [heq] at h1
          have h2 : Evolves s s1 := Evolves.trans hev0 h1
          refine ⟨?_, h2.mono_inflight, h2.log_app, ?_⟩
          · intro n r' hn
            by_cases hni : n = id
            · subst hni; rw [hc] at hn; cases hn
            · simpa [hni] using h2.mono_cache n r' hn
          · intro n hnin
            have hni : n ≠ id := fun h => hin (h ▸ hnin)
            simpa [hni] using h2.frozen n hnin

theorem runStep_keepsLog {E V : Type} {g : Graph E V}
    {step : Nat → RunState E V → Option (Result E V) × RunState E V} {x : Nat}
    (hEv : ∀ d s, Evolves s (step d s).2)
    (hKL : ∀ d s, x ∈ s.inflight → KeepsLog x s (step d s).2)
    (id : Nat) (s : RunState E V) (hx : x ∈ s.inflight) :
    KeepsLog x s (runStep g step id s).2 := by
  unfold runStep
  split
  · exact keepsLog_rfl x s
  next hc =>
    split
    · exact keepsLog_rfl x s
    next hin =>
      split
      · exact keepsLog_rfl x s
      next nd hg =>
        have hxid : x ≠ id := fun h => hin (h ▸ hx)
        have hx0 : x ∈ (RunState.mk s.cache (id :: s.inflight) s.log).inflight :=
          List.mem_cons_of_mem _ hx
        split
        next s1 heq =>
          have h1 := @executeTask_keepsLog E V step x nd id
            { s with inflight := id :: s.inflight } hEv hKL hx0 hxid
          rw [heq] at h1
          exact h1
        next r s1 heq =>
          have h1 := @executeTask_keepsLog E V step x nd id
            { s with inflight := id :: s.inflight } hEv hKL hx0 hxid
          rw [heq] at h1
          exact h1

theorem run_evolves {E V : Type} (g : Graph E V) :
    ∀ (fuel id : Nat) (s : RunState E V), Evolves s (run g fuel id s).2 := by
  intro fuel
  induction fuel with
  | zero => intro id s; exact Evolves.rfl s
  | succ f ih =>
    intro id s
    simp only [run]
    exact runStep_evolves (fun d t => ih d t) id s

theorem run_keepsLog {E V : Type} (g : Graph E V) (x : Nat) :
    ∀ (fuel id : Nat) (s : RunState E V), x ∈ s.inflight →
      KeepsLog x s (run g fuel id s).2 := by
  intro fuel
  induction fuel with
  | zero => intro id s _; exact keepsLog_rfl x s
  | succ f ih =>
    intro id s hx
    simp only [run]
    exact runStep_keepsLog (fun d t => run_evolves g f d t) (fun d t ht => ih d t ht) id s hx

theorem run_caches {E V : Type} {g : Graph E V} {fuel id : Nat}
    {s s' : RunState E V} {r : Result E V}
    (h : run g fuel id s = (some r, s')) : s'.cache id = some r := by
  cases fuel with
  | zero => simp [run] at h
  | succ f =>
    simp only [run] at h
    unfold runStep at h
    split at h
    next r0 hc =>
      obtain ⟨h1, h2⟩ := Prod.mk.injEq _ _ _ _ ▸ h
      cases h1
      subst h2
      simpa using hc
    next hc =>
      split at h
      · simp at h
      next hin =>
        split at h
        · simp at h
        next nd hg =>
          split at h
          next s1 heq => simp at h
          next r0 s1 heq =>
            obtain ⟨h1, h2⟩ := Prod.mk.injEq _ _ _ _ ▸ h
            cases h1
            subst h2
            simp

theorem run_cachedHit {E V : Type} (g : Graph E V) (fuel id : Nat)
    {s : RunState E V} {r : Result E V} (h : s.cache id = some r) :
    run g (fuel + 1) id s = (some r, s) := by
  simp [run, runStep, h]

/-! ### The at-most-once-compute invariant -/

theorem WF_initState {E V : Type} : WF (initState (E := E) (V := V)) := by
  intro n
  simp [computeCount, initState]

theorem keepsLog_computeCount {E V : Type} {x : Nat} {s t : RunState E V}
    (h : KeepsLog x s t) : computeCount x t = computeCount x s := by
  obtain ⟨L, e, f⟩ := h
  have : L.filter (fun en => en.1 = x) = [] := by
    rw [List.filter_eq_nil_iff]
    intro en hen
    simpa using f en hen
  simp [computeCount, e, List.filter_append, this]

theorem log_app_computeCount {E V : Type} {s t : RunState E V} {n : Nat}
    (h : ∃ L, t.log = L ++ s.log) : computeCount n s ≤ computeCount n t := by
  obtain ⟨L, e⟩ := h
  simp [computeCount, e, List.filter_append]

theorem callCompute_computeCount_self {E V : Type} (nd : Node E V) (id : Nat)
    (args : List V) (s : RunState E V) :
    computeCount id (callCompute nd id args s).2 = computeCount id s + 1 := by
  simp [computeCount, callCompute]

theorem callCompute_computeCount_other {E V : Type} {nd : Node E V} {id n : Nat}
    {args : List V} {s : RunState E V} (h : n ≠ id) :
    computeCount n (callCompute nd id args s).2 = computeCount n s := by
  simp [computeCount, callCompute, List.filter_cons,
    show ¬ id = n from fun hh => h hh.symm]

theorem runDepsWith_WF {E V : Type}
    {step : Nat → RunState E V → Option (Result E V) × RunState E V}
    (hWF : ∀ d s, WF s → WF (step d s).2) :
    ∀ (ds : List Nat) (s : RunState E V), WF s → WF (runDepsWith step ds s).2 := by
  intro ds
  induction ds with
  | nil => intro s h; exact h
  | cons d ds ih =>
    intro s h
    simp only [runDepsWith]
    exact ih (step d s).2 (hWF d s h)

theorem executeTask_WF {E V : Type}
    {step : Nat → RunState E V → Option (Result E V) × RunState E V}
    {nd : Node E V} {id : Nat} {s : RunState E V}
    (hEv : ∀ d t, Evolves t (step d t).2)
    (hKL : ∀ x d t, x ∈ t.inflight → KeepsLog x t (step d t).2)
    (hWFs : ∀ d t, WF t → WF (step d t).2)
    (hin : id ∈ s.inflight) (hcnt : computeCount id s = 0) (h : WF s) :
    WF (executeTask step nd id s).2 := by
  have push : ∀ (t : RunState E V) (args : List V), WF t → id ∈ t.inflight →
      computeCount id t = 0 → WF (callCompute nd id args t).2 := by
    intro t args hWFt hint hcntt n
    by_cases hn : n = id
    · subst hn
      rw [callCompute_computeCount_self, hcntt]
      exact ⟨le_refl 1, fun _ => Or.inr (by simpa [callCompute] using hint)⟩
    · rw [callCompute_computeCount_other hn]
      refine ⟨(hWFt n).1, fun h1 => ?_⟩
      rcases (hWFt n).2 h1 with h2 | h2
      · exact Or.inl (by simpa [callCompute] using h2)
      · exact Or.inr (by simpa [callCompute] using h2)
  unfold executeTask
  split
  · exact push s [] h hin hcnt
  · split
    · exact h
    · split
      · exact runDepsWith_WF hWFs nd.deps s h
      · split
        · exact runDepsWith_WF hWFs nd.deps s h
        · have hKL1 : KeepsLog id s (runDepsWith step nd.deps s).2 :=
            runDepsWith_keepsLog hEv (hKL id) nd.deps s hin
          exact push (runDepsWith step nd.deps s).2 _
            (runDepsWith_WF hWFs nd.deps s h)
            ((runDepsWith_evolves hEv nd.deps s).mono_inflight id hin)
            (by rw [keepsLog_computeCount hKL1, hcnt])

theorem runStep_WF {E V : Type} {g : Graph E V}
    {step : Nat → RunState E V → Option (Result E V) × RunState E V}
    (hEv : ∀ d t, Evolves t (step d t).2)
    (hKL : ∀ x d t, x ∈ t.inflight → KeepsLog x t (step d t).2)
    (hWFs : ∀ d t, WF t → WF (step d t).2)
    (id : Nat) (s : RunState E V) (h : WF s) : WF (runStep g step id s).2 := by
  unfold runStep
  split
  · exact h
  next hc =>
    split
    · exact h
    next hin =>
      split
      · exact h
      next nd hg =>
        have hcnt : computeCount id s = 0 := by
          by_contra hne
          rcases (h id).2 (Nat.one_le_iff_ne_zero.mpr hne) with h2 | h2
          · rw [hc] at h2; simp at h2
          · exact hin h2
        have hWF0 : WF { s with inflight := id :: s.inflight } := by
          intro n
          refine ⟨(h n).1, fun h1 => ?_⟩
          rcases (h n).2 h1 with h2 | h2
          · exact Or.inl h2
          · exact Or.inr (List.mem_cons_of_mem _ h2)
        have hWF1 := @executeTask_WF E V step nd id
          { s with inflight := id :: s.inflight } hEv hKL hWFs
          (List.mem_cons_self _ _) hcnt hWF0
        split
        next s1 heq =>
          rw [heq] at hWF1
          exact hWF1
        next r s1 heq =>
          rw [heq] at hWF1
          intro n
          refine ⟨(hWF1 n).1, fun h1 => ?_⟩
          rcases (hWF1 n).2 h1 with h2 | h2
          · refine Or.inl ?_
            by_cases hn : n = id <;> simp [hn] at h2 ⊢
            exact h2
          · exact Or.inr h2

theorem run_WF {E V : Type} (g : Graph E V) :
    ∀ (fuel id : Nat) (s : RunState E V), WF s → WF (run g fuel id s).2 := by
  intro fuel
  induction fuel with
  | zero => intro id s h; exact h
  | succ f ih =>
    intro id s h
    simp only [run]
    exact runStep_WF (fun d t => run_evolves g f d t)
      (fun x d t ht => run_keepsLog g x f d t ht) (fun d t ht => ih d t ht) id s h

theorem runSeq_WF {E V : Type} (g : Graph E V) :
    ∀ (calls : List (Nat × Nat)) (s : RunState E V), WF s → WF (runSeq g calls s) := by
  intro calls
  induction calls with
  | nil => intro s h; exact h
  | cons c cs ih =>
    intro s h
    simp only [runSeq]
    exact ih _ (run_WF g c.1 c.2 s h)

/-! ### Properties of the scanning helpers -/

theorem firstCachedErr_mem {E V : Type} (s : RunState E V) :
    ∀ (ds : List Nat) (r : Result E V), firstCachedErr s ds = some r →
      r.isOk = false ∧ ∃ d ∈ ds, s.cache d = some r := by
  intro ds
  induction ds with
  | nil => intro r h; simp [firstCachedErr] at h
  | cons d ds ih =>
    intro r h
    simp only [firstCachedErr] at h
    split at h
    next r0 hc =>
      split at h
      next hok =>
        obtain ⟨h1, d', hd', h2⟩ := ih r h
        exact ⟨h1, d', List.mem_cons_of_mem _ hd', h2⟩
      next hok =>
        cases h
        exact ⟨Bool.eq_false_iff.mpr hok, d, List.mem_cons_self _ _, hc⟩
    next hc =>
      obtain ⟨h1, d', hd', h2⟩ := ih r h
      exact ⟨h1, d', List.mem_cons_of_mem _ hd', h2⟩

theorem firstCachedErr_at {E V : Type} (s : RunState E V) :
    ∀ (ds : List Nat) (i : Nat) (hi : i < ds.length) (r : Result E V),
      s.cache (ds.get ⟨i, hi⟩) = some r → r.isOk = false →
      (∀ j (hj : j < ds.length), j < i → ∀ r', s.cache (ds.get ⟨j, hj⟩) = some r' →
        r'.isOk = true) →
      firstCachedErr s ds = some r := by
  intro ds
  induction ds with
  | nil => intro i hi; simp at hi
  | cons d ds ih =>
    intro i hi r hr hbad hfirst
    cases i with
    | zero =>
      simp only [List.get] at hr
      simp [firstCachedErr, hr, hbad]
    | succ i =>
      have hd : ∀ r', s.cache d = some r' → r'.isOk = true := by
        intro r' h
        exact hfirst 0 (by simp) (Nat.succ_pos i) r' h
      have hrec := ih i (Nat.lt_of_succ_lt_succ hi) r hr hbad (fun j hj hji r' h =>
        hfirst (j + 1) (Nat.succ_lt_succ hj) (Nat.succ_lt_succ hji) r' h)
      simp only [firstCachedErr]
      split
      next r0 hc =>
        rw [if_pos (hd r0 hc)]
        exact hrec
      next hc => exact hrec

theorem firstErrResult_mem {E V : Type} :
    ∀ (rs : List (Result E V)) (r : Result E V), firstErrResult rs = some r →
      r ∈ rs ∧ r.isOk = false := by
  intro rs
  induction rs with
  | nil => intro r h; simp [firstErrResult] at h
  | cons r0 rs ih =>
    intro r h
    simp only [firstErrResult] at h
    by_cases hok : r0.isOk = true
    · rw [if_pos hok] at h
      obtain ⟨h1, h2⟩ := ih r h
      exact ⟨List.mem_cons_of_mem _ h1, h2⟩
    · rw [if_neg hok] at h
      cases h
      exact ⟨List.mem_cons_self _ _, Bool.eq_false_iff.mpr hok⟩

theorem firstErrResult_none {E V : Type} :
    ∀ (rs : List (Result E V)), firstErrResult rs = none →
      ∀ r ∈ rs, r.isOk = true := by
  intro rs
  induction rs with
  | nil => intro _ r h; simp at h
  | cons r0 rs ih =>
    intro h r hr
    simp only [firstErrResult] at h
    by_cases hok : r0.isOk = true
    · rw [if_pos hok] at h
      rcases List.mem_cons.mp hr with h1 | h1
      · subst h1; exact hok
      · exact ih h r h1
    · rw [if_neg hok] at h
      cases h

theorem seqResults_cons_some {E V : Type} {o : Option (Result E V)}
    {os : List (Option (Result E V))} {rs : List (Result E V)}
    (h : seqResults (o :: os) = some rs) :
    ∃ r rs0, o = some r ∧ seqResults os = some rs0 ∧ rs = r :: rs0 := by
  rcases o with _ | r
  · simp [seqResults] at h
  · rcases hq : seqResults os with _ | rs0 <;> rw [seqResults, hq] at h
    · simp at h
    · simp at h
      exact ⟨r, rs0, rfl, rfl, h.symm⟩

theorem seqResults_length {E V : Type} :
    ∀ (os : List (Option (Result E V))) (rs : List (Result E V)),
      seqResults os = some rs → rs.length = os.length := by
  intro os
  induction os with
  | nil => intro rs h; simp only [seqResults] at h; cases h; simp
  | cons o os ih =>
    intro rs h
    obtain ⟨r, rs0, ho, hq, hrs⟩ := seqResults_cons_some h
    subst hrs
    simp [ih rs0 hq]

theorem seqResults_get {E V : Type} :
    ∀ (os : List (Option (Result E V))) (rs : List (Result E V)),
      seqResults os = some rs →
      ∀ (i : Nat) (h1 : i < os.length) (h2 : i < rs.length),
        os.get ⟨i, h1⟩ = some (rs.get ⟨i, h2⟩) := by
  intro os
  induction os with
  | nil => intro rs h i h1; simp at h1
  | cons o os ih =>
    intro rs h i h1 h2
    obtain ⟨r, rs0, ho, hq, hrs⟩ := seqResults_cons_some h
    subst hrs
    subst ho
    cases i with
    | zero => simp
    | succ i => exact ih rs0 hq i (Nat.lt_of_succ_lt_succ h1) (Nat.lt_of_succ_lt_succ h2)

theorem seqResults_mem {E V : Type} :
    ∀ (os : List (Option (Result E V))) (rs : List (Result E V)),
      seqResults os = some rs → ∀ r ∈ rs, some r ∈ os := by
  intro os
  induction os with
  | nil => intro rs h r hr; simp only [seqResults] at h; cases h; simp at hr
  | cons o os ih =>
    intro rs h r hr
    obtain ⟨r0, rs0, ho, hq, hrs⟩ := seqResults_cons_some h
    subst hrs
    subst ho
    rcases List.mem_cons.mp hr with h1 | h1
    · subst h1; exact List.mem_cons_self _ _
    · exact List.mem_cons_of_mem _ (ih rs0 hq r h1)

theorem okVals_length {E V : Type} :
    ∀ (rs : List (Result E V)), (∀ r ∈ rs, r.isOk = true) →
      (okVals rs).length = rs.length := by
  intro rs
  induction rs with
  | nil => intro _; simp [okVals]
  | cons r rs ih =>
    intro h
    rcases r with v | ⟨e, t⟩
    · simpa [okVals] using ih (fun r hr => h r (List.mem_cons_of_mem _ hr))
    · have := h (.err e t) (List.mem_cons_self _ _)
      simp [Result.isOk] at this

theorem okVals_get {E V : Type} :
    ∀ (rs : List (Result E V)), (∀ r ∈ rs, r.isOk = true) →
      ∀ (i : Nat) (h1 : i < rs.length) (h2 : i < (okVals rs).length),
        rs.get ⟨i, h1⟩ = Result.ok ((okVals rs).get ⟨i, h2⟩) := by
  intro rs
  induction rs with
  | nil => intro _ i h1; simp at h1
  | cons r rs ih =>
    intro h i h1 h2
    rcases r with v | ⟨e, t⟩
    · cases i with
      | zero => simp [okVals]
      | succ i =>
        simp only [okVals, List.get]
        exact ih (fun r hr => h r (List.mem_cons_of_mem _ hr)) i
          (Nat.lt_of_succ_lt_succ h1) (by simpa [okVals] using Nat.lt_of_succ_lt_succ h2)
    · have := h (.err e t) (List.mem_cons_self _ _)
      simp [Result.isOk] at this

theorem runDepsWith_length {E V : Type}
    (step : Nat → RunState E V → Option (Result E V) × RunState E V) :
    ∀ (ds : List Nat) (s : RunState E V),
      (runDepsWith step ds s).1.length = ds.length := by
  intro ds
  induction ds with
  | nil => intro s; simp [runDepsWith]
  | cons d ds ih => intro s; simp [runDepsWith, ih]

theorem runDepsWith_get {E V : Type}
    {step : Nat → RunState E V → Option (Result E V) × RunState E V}
    (hEv : ∀ d t, Evolves t (step d t).2)
    (hCa : ∀ d t r, (step d t).1 = some r → ((step d t).2).cache d = some r) :
    ∀ (ds : List Nat) (s : RunState E V) (i : Nat) (h1 : i < ds.length)
      (h2 : i < (runDepsWith step ds s).1.length) (r : Result E V),
      (runDepsWith step ds s).1.get ⟨i, h2⟩ = some r →
      ((runDepsWith step ds s).2).cache (ds.get ⟨i, h1⟩) = some r := by
  intro ds
  induction ds with
  | nil => intro s i h1; simp at h1
  | cons d ds ih =>
    intro s i h1 h2 r hr
    cases i with
    | zero =>
      simp only [runDepsWith, List.get] at hr ⊢
      exact (runDepsWith_evolves hEv ds (step d s).2).mono_cache d r (hCa d s r hr)
    | succ i =>
      simp only [runDepsWith, List.get] at hr ⊢
      exact ih (step d s).2 i (Nat.lt_of_succ_lt_succ h1)
        (by simpa [runDepsWith] using Nat.lt_of_succ_lt_succ h2) r hr

/-! ### Error provenance -/

theorem CacheSound_initState {E V : Type} (g : Graph E V) :
    CacheSound g (initState (E := E) (V := V)) := by
  intro n r h
  simp [initState] at h

theorem ResultSound_edge {E V : Type} {g : Graph E V} {n d : Nat} {r : Result E V}
    (he : Edge g n d) (h : ResultSound g d r) : ResultSound g n r := by
  intro e t hr
  obtain ⟨h1, h2⟩ := h e t hr
  exact ⟨Reach.step he h1, h2⟩

theorem wrap_resultSound {E V : Type} {g : Graph E V} {nd : Node E V} {id : Nat}
    (hg : findNode g id = some nd) (args : List V) :
    ResultSound g id (wrap id (nd.compute args)) := by
  intro e t hr
  rcases hc : nd.compute args with e0 | v <;> rw [hc] at hr <;> simp [wrap] at hr
  obtain ⟨he, ht⟩ := hr
  subst he
  subst ht
  exact ⟨Reach.refl id, nd, args, hg, hc⟩

theorem runDepsWith_sound {E V : Type} {g : Graph E V}
    {step : Nat → RunState E V → Option (Result E V) × RunState E V}
    (hS : ∀ d t, CacheSound g t → CacheSound g (step d t).2 ∧
      ∀ r, (step d t).1 = some r → ResultSound g d r) :
    ∀ (ds : List Nat) (s : RunState E V), CacheSound g s →
      CacheSound g (runDepsWith step ds s).2 ∧
      ∀ r, some r ∈ (runDepsWith step ds s).1 → ∃ d ∈ ds, ResultSound g d r := by
  intro ds
  induction ds with
  | nil =>
    intro s h
    exact ⟨h, fun r hr => by simp [runDepsWith] at hr⟩
  | cons d ds ih =>
    intro s h
    obtain ⟨h1, h2⟩ := hS d s h
    obtain ⟨h3, h4⟩ := ih (step d s).2 h1
    refine ⟨h3, fun r hr => ?_⟩
    simp only [runDepsWith, List.mem_cons] at hr
    rcases hr with hr | hr
    · exact ⟨d, List.mem_cons_self _ _, h2 r hr.symm⟩
    · obtain ⟨d', hd', h5⟩ := h4 r hr
      exact ⟨d', List.mem_cons_of_mem _ hd', h5⟩

theorem executeTask_sound {E V : Type} {g : Graph E V}
    {step : Nat → RunState E V → Option (Result E V) × RunState E V}
    {nd : Node E V} {id : Nat} {s : RunState E V}
    (hS : ∀ d t, CacheSound g t → CacheSound g (step d t).2 ∧
      ∀ r, (step d t).1 = some r → ResultSound g d r)
    (hg : findNode g id = some nd) (h : CacheSound g s) :
    CacheSound g (executeTask step nd id s).2 ∧
    ∀ r, (executeTask step nd id s).1 = some r → ResultSound g id r := by
  unfold executeTask
  split
  next hdeps =>
    refine ⟨fun n r hr => h n r (by simpa [callCompute] using hr), fun r hr => ?_⟩
    simp only [callCompute, Option.some.injEq] at hr
    subst hr
    exact wrap_resultSound hg []
  · split
    next r0 hfce =>
      refine ⟨h, fun r hr => ?_⟩
      cases hr
      obtain ⟨_, d, hd, hcd⟩ := firstCachedErr_mem s nd.deps r0 hfce
      exact ResultSound_edge ⟨nd, hg, hd⟩ (h d r0 hcd)
    next hfce =>
      obtain ⟨h1, h2⟩ := runDepsWith_sound hS nd.deps s h
      split
      · exact ⟨h1, fun r hr => by simp at hr⟩
      next rs hseq =>
        split
        next r0 hfe =>
          refine ⟨h1, fun r hr => ?_⟩
          cases hr
          obtain ⟨hmem, _⟩ := firstErrResult_mem rs r0 hfe
          obtain ⟨d, hd, h3⟩ := h2 r0 (seqResults_mem _ rs hseq r0 hmem)
          exact ResultSound_edge ⟨nd, hg, hd⟩ h3
        next hfe =>
          refine ⟨fun n r hr => h1 n r (by simpa [callCompute] using hr), fun r hr => ?_⟩
          simp only [callCompute, Option.some.injEq] at hr
          subst hr
          exact wrap_resultSound hg _

theorem runStep_sound {E V : Type} {g : Graph E V}
    {step : Nat → RunState E V → Option (Result E V) × RunState E V}
    (hS : ∀ d t, CacheSound g t → CacheSound g (step d t).2 ∧
      ∀ r, (step d t).1 = some r → ResultSound g d r)
    (id : Nat) (s : RunState E V) (h : CacheSound g s) :
    CacheSound g (runStep g step id s).2 ∧
    ∀ r, (runStep g step id s).1 = some r → ResultSound g id r := by
  unfold runStep
  split
  next r0 hc =>
    refine ⟨h, fun r hr => ?_⟩
    cases hr
    exact h id r0 hc
  next hc =>
    split
    · exact ⟨h, fun r hr => by simp at hr⟩
    next hin =>
      split
      · exact ⟨h, fun r hr => by simp at hr⟩
      next nd hg =>
        have h0 : CacheSound g { s with inflight := id :: s.inflight } := h
        have hex := executeTask_sound (s := { s with inflight := id :: s.inflight })
          hS hg h0
        split
        next s1 heq =>
          rw [heq] at hex
          exact ⟨hex.1, fun r hr => by simp at hr⟩
        next r s1 heq =>
          rw [heq] at hex
          have hrS : ResultSound g id r := hex.2 r rfl
          refine ⟨fun n r' hr' => ?_, fun r' hr' => by cases hr'; exact hrS⟩
          by_cases hn : n = id
          · subst hn
            have h5 : some r = some r' := by simpa using hr'
            cases h5
            exact hrS
          · have h5 : s1.cache n = some r' := by simpa [hn] using hr'
            exact hex.1 n r' h5

theorem run_sound {E V : Type} (g : Graph E V) :
    ∀ (fuel id : Nat) (s : RunState E V), CacheSound g s →
      CacheSound g (run g fuel id s).2 ∧
      ∀ r, (run g fuel id s).1 = some r → ResultSound g id r := by
  intro fuel
  induction fuel with
  | zero =>
    intro id s h
    exact ⟨h, fun r hr => by simp [run] at hr⟩
  | succ f ih =>
    intro id s h
    simp only [run]
    exact runStep_sound (fun d t ht => ih d t ht) id s h

/-! ### Case analysis of a settling first run -/

/-- A fresh run that settles either propagated a dependency `Err` without ever
invoking the node's own compute (no new log entry for the node), or took the
compute path: the compute function was invoked on the ordered list of its
dependencies' settled `Ok` values, and that invocation is the newest log
entry. -/
theorem run_cases {E V : Type} {g : Graph E V} {fuel id : Nat}
    {s s' : RunState E V} {nd : Node E V} {r : Result E V}
    (hg : findNode g id = some nd)
    (hc : s.cache id = none)
    (hin : id ∉ s.inflight)
    (h : run g (fuel + 1) id s = (some r, s')) :
    (KeepsLog id s s' ∧ ∃ e t, r = .err e t) ∨
    (∃ args L, r = wrap id (nd.compute args) ∧ s'.log = (id, args, r) :: L ∧
      (∃ L0, L = L0 ++ s.log ∧ ∀ en ∈ L0, en.1 ≠ id) ∧
      args.length = nd.deps.length ∧
      (id ∉ nd.deps →
        ∀ (i : Nat) (h1 : i < nd.deps.length) (h2 : i < args.length),
          s'.cache (nd.deps.get ⟨i, h1⟩) = some (Result.ok (args.get ⟨i, h2⟩)))) := by
  simp only [run] at h
  unfold runStep at h
  split at h
  next r0 hcc => rw [hc] at hcc; cases hcc
  next hcc =>
    split at h
    next hinn => exact absurd hinn hin
    next hinn =>
      split at h
      next hgg => rw [hg] at hgg; cases hgg
      next nd0 hgg =>
        rw [hg] at hgg
        injection hgg with hnd
        subst hnd
        split at h
        next s1 heq => simp at h
        next r0 s1 heq =>
          obtain ⟨h1, h2⟩ := Prod.mk.injEq _ _ _ _ ▸ h
          cases h1
          subst h2
          have hin0 : id ∈ (RunState.mk s.cache (id :: s.inflight) s.log).inflight :=
            List.mem_cons_self _ _
          unfold executeTask at heq
          split at heq
          next hdeps =>
            obtain ⟨e1, e2⟩ := Prod.mk.injEq _ _ _ _ ▸ heq
            injection e1 with e1
            refine Or.inr ⟨[], s.log, ?_, ?_, ⟨[], by simp, by simp⟩, by simp [hdeps], ?_⟩
            · rw [← e1]; simp [callCompute]
            · rw [← e2, ← e1]; simp [callCompute]
            · intro _ i hi1
              rw [hdeps] at hi1
              simp at hi1
          next hne =>
            split at heq
            next r1 hfce =>
              obtain ⟨e1, e2⟩ := Prod.mk.injEq _ _ _ _ ▸ heq
              injection e1 with e1
              subst e1
              refine Or.inl ⟨⟨[], by rw [← e2]; simp, by simp⟩, ?_⟩
              obtain ⟨hbad, _⟩ := firstCachedErr_mem _ nd.deps r1 hfce
              cases r1 with
              | ok v => simp [Result.isOk] at hbad
              | err e t => exact ⟨e, t, rfl⟩
            next hfce =>
              split at heq
              next hseq => simp at heq
              next rs hseq =>
                have hKLq : KeepsLog id (RunState.mk s.cache (id :: s.inflight) s.log)
                    (runDepsWith (run g fuel) nd.deps
                      (RunState.mk s.cache (id :: s.inflight) s.log)).2 :=
                  runDepsWith_keepsLog (fun d t => run_evolves g fuel d t)
                    (fun d t ht => run_keepsLog g id fuel d t ht) nd.deps _ hin0
                split at heq
                next r1 hfe =>
                  obtain ⟨e1, e2⟩ := Prod.mk.injEq _ _ _ _ ▸ heq
                  injection e1 with e1
                  subst e1
                  obtain ⟨L0, hL0, hL0f⟩ := hKLq
                  refine Or.inl ⟨⟨L0, by rw [← e2]; exact hL0, hL0f⟩, ?_⟩
                  obtain ⟨hmem, hbad⟩ := firstErrResult_mem rs r1 hfe
                  cases r1 with
                  | ok v => simp [Result.isOk] at hbad
                  | err e t => exact ⟨e, t, rfl⟩
                next hfe =>
                  obtain ⟨e1, e2⟩ := Prod.mk.injEq _ _ _ _ ▸ heq
                  injection e1 with e1
                  have hallok : ∀ x ∈ rs, x.isOk = true := firstErrResult_none rs hfe
                  have hlen1 : rs.length = (runDepsWith (run g fuel) nd.deps
                      (RunState.mk s.cache (id :: s.inflight) s.log)).1.length :=
                    seqResults_length _ rs hseq
                  have hlen2 : (runDepsWith (run g fuel) nd.deps
                      (RunState.mk s.cache (id :: s.inflight) s.log)).1.length
                      = nd.deps.length := runDepsWith_length _ _ _
                  have hlen3 : (okVals rs).length = rs.length := okVals_length rs hallok
                  obtain ⟨L0, hL0, hL0f⟩ := hKLq
                  refine Or.inr ⟨okVals rs, _, ?_, ?_, ⟨L0, hL0, hL0f⟩, by omega, ?_⟩
                  · rw [← e1]; simp [callCompute]
                  · rw [← e2, ← e1]; simp [callCompute]
                  · intro hself i hi1 hi2
                    have hi3 : i < (runDepsWith (run g fuel) nd.deps
                        (RunState.mk s.cache (id :: s.inflight) s.log)).1.length := by omega
                    have hi4 : i < rs.length := by omega
                    have hgot := seqResults_get _ rs hseq i hi3 hi4
                    have hca : ∀ (d : Nat) (t : RunState E V) (rr : Result E V),
                        (run g fuel d t).1 = some rr → ((run g fuel d t).2).cache d = some rr := by
                      intro d t rr hrr
                      exact run_caches (Prod.ext hrr rfl)
                    have hcache := runDepsWith_get (fun d t => run_evolves g fuel d t) hca
                      nd.deps _ i hi1 hi3 _ hgot
                    have hvals := okVals_get rs hallok i hi4 hi2
                    rw [hvals] at hcache
                    have hdne : ¬ nd.deps.get ⟨i, hi1⟩ = id := by
                      intro hcontra
                      exact hself (hcontra ▸ List.get_mem nd.deps i hi1)
                    dsimp only
                    rw [if_neg hdne, ← e2]
                    simpa [callCompute] using hcache

/-! ### Evaluation of the cached-error fast path -/

theorem firstCachedErr_ext {E V : Type} {s t : RunState E V}
    (h : ∀ d, s.cache d = t.cache d) :
    ∀ ds, firstCachedErr s ds = firstCachedErr t ds := by
  intro ds
  induction ds with
  | nil => simp [firstCachedErr]
  | cons d ds ih => simp only [firstCachedErr, h d, ih]

theorem firstCachedErr_exists {E V : Type} (s : RunState E V) :
    ∀ (ds : List Nat), (∃ d ∈ ds, ∃ e t, s.cache d = some (Result.err e t)) →
      ∃ r, firstCachedErr s ds = some r := by
  intro ds
  induction ds with
  | nil => intro h; simp at h
  | cons d ds ih =>
    intro h
    simp only [firstCachedErr]
    split
    next r0 hc =>
      by_cases hok : r0.isOk = true
      · rw [if_pos hok]
        obtain ⟨d', hd', e, t, hdc⟩ := h
        rcases List.mem_cons.mp hd' with h1 | h1
        · subst h1
          rw [hdc] at hc
          injection hc with hc
          rw [← hc] at hok
          simp [Result.isOk] at hok
        · exact ih ⟨d', h1, e, t, hdc⟩
      · rw [if_neg hok]
        exact ⟨r0, rfl⟩
    next hc =>
      obtain ⟨d', hd', e, t, hdc⟩ := h
      rcases List.mem_cons.mp hd' with h1 | h1
      · subst h1; rw [hdc] at hc; cases hc
      · exact ih ⟨d', h1, e, t, hdc⟩

/-- When some dependency already has a cached `Err`, a fresh run returns the
first such error and touches nothing except marking the node in flight and
writing its cache: no compute runs, no dependency is started. -/
theorem run_fastpath {E V : Type} {g : Graph E V} {fuel id : Nat}
    {s : RunState E V} {nd : Node E V} {r : Result E V}
    (hg : findNode g id = some nd) (hc : s.cache id = none) (hin : id ∉ s.inflight)
    (hfce : firstCachedErr s nd.deps = some r) :
    run g (fuel + 1) id s =
      (some r, { s with
                  inflight := id :: s.inflight
                  cache := fun j => if j = id then some r else s.cache j }) := by
  have hne : nd.deps ≠ [] := by
    intro hd
    rw [hd] at hfce
    simp [firstCachedErr] at hfce
  have hext : firstCachedErr (RunState.mk s.cache (id :: s.inflight) s.log) nd.deps
      = firstCachedErr s nd.deps :=
    firstCachedErr_ext (s := RunState.mk s.cache (id :: s.inflight) s.log) (t := s)
      (fun d => rfl) nd.deps
  simp only [run]
  unfold runStep
  split
  next r0 hcc => rw [hc] at hcc; cases hcc
  next hcc =>
    rw [if_neg hin]
    split
    next hgg => rw [hg] at hgg; cases hgg
    next nd0 hgg =>
      rw [hg] at hgg
      injection hgg with hnd
      subst hnd
      split
      next s1 heq =>
        exfalso
        unfold executeTask at heq
        split at heq
        next hdeps => exact hne hdeps
        next =>
          split at heq
          next r1 hfce1 => simp at heq
          next hfce1 =>
            rw [hext, hfce] at hfce1
            cases hfce1
      next r0 s1 heq =>
        unfold executeTask at heq
        split at heq
        next hdeps => exact absurd hdeps hne
        next =>
          split at heq
          next r1 hfce1 =>
            rw [hext, hfce] at hfce1
            injection hfce1 with hr1
            subst hr1
            obtain ⟨e1, e2⟩ := Prod.mk.injEq _ _ _ _ ▸ heq
            injection e1 with e1
            subst e1
            rw [← e2]
          next hfce1 =>
            exfalso
            rw [hext, hfce] at hfce1
            cases hfce1

/-! ### The claims -/

/-- C1 (counterexample): in `gTwoErr`, node 1 is an ancestor of node 2 whose
own compute returns `Err "e2"`, yet running node 2 surfaces `Err "e1"` with
origin 0, not node 1's error — so with several failing ancestors the claim
fails as universally stated. -/
theorem c1_counterexample :
    (∃ nd, findNode gTwoErr 1 = some nd ∧ nd.compute [] = Except.error "e2") ∧
    Edge gTwoErr 2 1 ∧
    (run gTwoErr 3 2 initState).1 = some (Result.err "e1" 0) ∧
    ¬ (run gTwoErr 3 2 initState).1 = some (Result.err "e2" 1) := by
  refine ⟨⟨⟨"a2", [], fun _ => Except.error "e2"⟩, rfl, rfl⟩,
    ⟨⟨"d", [0, 1], add2⟩, rfl, by decide⟩, rfl, by decide⟩

/-- C1 (amended): whenever a run settles with an `Err`, the `errorTask` it
blames is an ancestor of the node that was run and is a node whose own
compute function produces exactly that error payload — never an intermediate
node that merely forwarded the error. -/
theorem c1_error_origin_exact {E V : Type} (g : Graph E V) (fuel id : Nat)
    (s s' : RunState E V) (e : E) (t : Nat)
    (hs : CacheSound g s)
    (h : run g fuel id s = (some (Result.err e t), s')) :
    Reach g id t ∧ ∃ nd args, findNode g t = some nd ∧ nd.compute args = Except.error e :=
  (run_sound g fuel id s hs).2 (Result.err e t) (by rw [h]) e t rfl

/-- Witness for C1: running the descendant 2 of the failing leaf 0 in the
chain graph surfaces `Err "boom"` blaming exactly node 0. -/
theorem c1_witness :
    CacheSound gChain initState ∧
    run gChain 3 2 initState = (some (Result.err "boom" 0), (run gChain 3 2 initState).2) ∧
    (Reach gChain 2 0 ∧
      ∃ nd args, findNode gChain 0 = some nd ∧ nd.compute args = Except.error "boom") :=
  ⟨CacheSound_initState gChain, rfl,
    c1_error_origin_exact gChain 3 2 initState (run gChain 3 2 initState).2 "boom" 0
      (CacheSound_initState gChain) rfl⟩

/-- C2: a node's compute function is invoked at most once across arbitrarily
many executor invocations from a fresh state, and in the diamond graph the
shared dependency 0 computes exactly once while the top evaluates to
`Ok 50`. -/
theorem c2_compute_at_most_once :
    (∀ (E V : Type) (g : Graph E V) (calls : List (Nat × Nat)) (n : Nat),
      computeCount n (runSeq g calls initState) ≤ 1) ∧
    ((run gDiamond 4 3 initState).1 = some (Result.ok 50) ∧
      computeCount 0 ((run gDiamond 4 3 initState).2) = 1) := by
  refine ⟨fun E V g calls n => (runSeq_WF g calls initState WF_initState n).1, rfl, rfl⟩

/-- C3: once a run of a node settles with an `Err`, every later run of that
node returns the identical cached `Err` with a completely unchanged state —
in particular the node's compute function is not invoked again. -/
theorem c3_err_cached_forever {E V : Type} (g : Graph E V) (fuel id : Nat)
    (s s' : RunState E V) (e : E) (t : Nat)
    (h : run g (fuel + 1) id s = (some (Result.err e t), s')) (fuel' : Nat) :
    run g (fuel' + 1) id s' = (some (Result.err e t), s') ∧
    computeCount id ((run g (fuel' + 1) id s').2) = computeCount id s' := by
  have h2 := run_cachedHit g fuel' id (run_caches h)
  exact ⟨h2, by rw [h2]⟩

/-- Witness for C3: the failing leaf of the chain graph settles as
`Err "boom"` and a second run returns the same cached value unchanged. -/
theorem c3_witness :
    run gChain 1 0 initState = (some (Result.err "boom" 0), (run gChain 1 0 initState).2) ∧
    (run gChain 6 0 ((run gChain 1 0 initState).2)
        = (some (Result.err "boom" 0), (run gChain 1 0 initState).2) ∧
      computeCount 0 ((run gChain 6 0 ((run gChain 1 0 initState).2)).2)
        = computeCount 0 ((run gChain 1 0 initState).2)) :=
  ⟨rfl, c3_err_cached_forever gChain 0 0 initState (run gChain 1 0 initState).2 "boom" 0 rfl 5⟩

/-- C4: if some dependency of a fresh node already has a cached `Err`, the run
returns a cached dependency `Err` and changes nothing except marking the node
in flight and caching that error at the node: the log is untouched (no compute
of the node and no dependency execution is started). -/
theorem c4_cached_dep_err_short_circuit {E V : Type} {g : Graph E V} {fuel id : Nat}
    {s : RunState E V} {nd : Node E V}
    (hg : findNode g id = some nd)
    (hdeps : nd.deps ≠ [])
    (hc : s.cache id = none)
    (hin : id ∉ s.inflight)
    (hsome : ∃ d ∈ nd.deps, ∃ e t, s.cache d = some (Result.err e t)) :
    ∃ e t d, d ∈ nd.deps ∧ s.cache d = some (Result.err e t) ∧
      run g (fuel + 1) id s =
        (some (Result.err e t), { s with
          inflight := id :: s.inflight
          cache := fun j => if j = id then some (Result.err e t) else s.cache j }) := by
  obtain ⟨r, hfce⟩ := firstCachedErr_exists s nd.deps hsome
  obtain ⟨hbad, d', hd', hcd⟩ := firstCachedErr_mem s nd.deps r hfce
  cases r with
  | ok v => simp [Result.isOk] at hbad
  | err e t => exact ⟨e, t, d', hd', hcd, run_fastpath hg hc hin hfce⟩

/-- Witness for C4: after the failing leaf of the chain graph is cached, a
fresh run of its dependent short-circuits on the cached error. -/
theorem c4_witness :
    (findNode gChain 1 = some (Node.mk "b" [0] dbl) ∧
      ((run gChain 1 0 initState).2).cache 1 = none ∧
      (1 : Nat) ∉ ((run gChain 1 0 initState).2).inflight ∧
      ((run gChain 1 0 initState).2).cache 0 = some (Result.err "boom" 0)) ∧
    (∃ e t d, d ∈ (Node.mk "b" [0] dbl).deps ∧
      ((run gChain 1 0 initState).2).cache d = some (Result.err e t) ∧
      run gChain 4 1 ((run gChain 1 0 initState).2) =
        (some (Result.err e t), { (run gChain 1 0 initState).2 with
          inflight := 1 :: ((run gChain 1 0 initState).2).inflight
          cache := fun j => if j = 1 then some (Result.err e t)
            else ((run gChain 1 0 initState).2).cache j })) :=
  ⟨⟨rfl, rfl, by decide, rfl⟩,
    @c4_cached_dep_err_short_circuit String Nat gChain 3 1
      ((run gChain 1 0 initState).2) (Node.mk "b" [0] dbl) rfl (by decide) rfl
      (by decide) ⟨0, by decide, "boom", 0, rfl⟩⟩

/-- C5: (a) whenever a fresh run of a node leads to a new invocation of its
compute function, the recorded argument list has exactly one value per
declared dependency, in declaration order, each equal to the `Ok` value that
dependency settled with; (b) a run of an `all` composition that settles `Ok`
yields the ordered tuple of its dependencies' settled values. -/
theorem c5_dependency_order_preserved :
    (∀ (E V : Type) (g : Graph E V) (fuel id : Nat) (s s' : RunState E V)
      (nd : Node E V) (r rr : Result E V) (args : List V),
      findNode g id = some nd → s.cache id = none → id ∉ s.inflight → id ∉ nd.deps →
      run g (fuel + 1) id s = (some r, s') →
      (id, args, rr) ∈ s'.log → (id, args, rr) ∉ s.log →
      args.length = nd.deps.length ∧
      ∀ (i : Nat) (h1 : i < nd.deps.length) (h2 : i < args.length),
        s'.cache (nd.deps.get ⟨i, h1⟩) = some (Result.ok (args.get ⟨i, h2⟩))) ∧
    (∀ (E : Type) (g : Graph E Val) (lbl : String) (ds : List Nat) (fuel aid : Nat)
      (s s' : RunState E Val) (w : Val),
      findNode g aid = some (allNode lbl ds) → aid ∉ ds → s.cache aid = none →
      aid ∉ s.inflight →
      run g (fuel + 1) aid s = (some (Result.ok w), s') →
      ∃ vs, w = Val.list vs ∧ vs.length = ds.length ∧
        ∀ (i : Nat) (h1 : i < ds.length) (h2 : i < vs.length),
          s'.cache (ds.get ⟨i, h1⟩) = some (Result.ok (vs.get ⟨i, h2⟩))) := by
  constructor
  · intro E V g fuel id s s' nd r rr args hg hc hin hself h hmem hnot
    rcases run_cases hg hc hin h with ⟨⟨L, hL, hLf⟩, _⟩ | hcomp
    · exfalso
      rw [hL] at hmem
      rcases List.mem_append.mp hmem with h1 | h1
      · exact hLf _ h1 rfl
      · exact hnot h1
    · obtain ⟨args0, L, hwrap, hlog, ⟨L0, hL0, hL0f⟩, hlen, hidx⟩ := hcomp
      rw [hlog] at hmem
      rcases List.mem_cons.mp hmem with h1 | h1
      · have hargs : args = args0 := by
          have := congrArg (fun p => p.2.1) h1
          simpa using this
        subst hargs
        exact ⟨hlen, hidx hself⟩
      · exfalso
        rw [hL0] at h1
        rcases List.mem_append.mp h1 with h2 | h2
        · exact hL0f _ h2 rfl
        · exact hnot h2
  · intro E g lbl ds fuel aid s s' w hg hself hc hin h
    rcases run_cases hg hc hin h with ⟨_, e, t, hres⟩ | hcomp
    · cases hres
    · obtain ⟨args, L, hwrap, _, _, hlen, hidx⟩ := hcomp
      have hw : w = Val.list args := by
        simpa [allNode, wrap] using hwrap
      exact ⟨args, hw, hlen, hidx hself⟩

/-- Witness for C5: in the diamond, node 3's compute received `[20, 30]` —
the settled values of dependencies 1 and 2 in declaration order. -/
theorem c5_witness :
    run gDiamond 4 3 initState = (some (Result.ok 50), (run gDiamond 4 3 initState).2) ∧
    ((3 : Nat), ([20, 30] : List Nat), (Result.ok 50 : Result String Nat))
      ∈ ((run gDiamond 4 3 initState).2).log ∧
    (([20, 30] : List Nat).length = ([1, 2] : List Nat).length ∧
      ∀ (i : Nat) (h1 : i < ([1, 2] : List Nat).length)
        (h2 : i < ([20, 30] : List Nat).length),
        ((run gDiamond 4 3 initState).2).cache (([1, 2] : List Nat).get ⟨i, h1⟩) =
          some (Result.ok (([20, 30] : List Nat).get ⟨i, h2⟩))) :=
  ⟨rfl, by decide,
    c5_dependency_order_preserved.1 String Nat gDiamond 3 3 initState
      (run gDiamond 4 3 initState).2 (Node.mk "d" [1, 2] add2) (Result.ok 50)
      (Result.ok 50) [20, 30] rfl rfl (by simp [initState]) (by decide) rfl
      (by decide) (by simp [initState])⟩

/-- C6 (counterexample): the public `err` constructor re-exported by
`index.ts` lets a caller build an `Err` blaming any task of their choosing —
here node 3 of the diamond, whose own compute never produces `"fake"`. -/
theorem c6_counterexample :
    err (E := String) (V := Nat) 3 "fake" = Result.err "fake" 3 ∧
    (∀ args : List Nat, add2 args ≠ Except.error "fake") := by
  refine ⟨rfl, ?_⟩
  intro args h
  rcases args with _ | ⟨x, args⟩
  · simp [add2] at h
  · rcases args with _ | ⟨y, args⟩
    · simp [add2] at h
    · rcases args with _ | ⟨z, args⟩
      · simp [add2] at h
      · simp [add2] at h

/-- C6 (amended): an `Err` arising from the wrapper installed around a node's
compute at construction time always blames the node itself, and its payload
is the one the node's compute produced. -/
theorem c6_wrapper_binds_self {E V : Type} (nd : Node E V) (id : Nat)
    (args : List V) (s : RunState E V) (e : E) (t : Nat)
    (h : (callCompute nd id args s).1 = Result.err e t) :
    t = id ∧ nd.compute args = Except.error e := by
  simp only [callCompute] at h
  rcases hc : nd.compute args with e0 | v <;> rw [hc] at h <;> simp [wrap] at h
  obtain ⟨h1, h2⟩ := h
  refine ⟨h2.symm, ?_⟩
  rw [← h1]

/-- Witness for C6: wrapping a compute that fails with `"boom"` at node 0
yields an `Err` blaming node 0 itself. -/
theorem c6_witness :
    (callCompute (Node.mk "a" ([] : List Nat) (fun _ => Except.error "boom")) 0 []
        initState).1 = (Result.err "boom" 0 : Result String Nat) ∧
    ((0 : Nat) = 0 ∧
      (Node.mk "a" ([] : List Nat) (fun _ => Except.error "boom")).compute []
        = (Except.error "boom" : Except String Nat)) :=
  ⟨rfl, c6_wrapper_binds_self (Node.mk "a" [] (fun _ => Except.error "boom")) 0 []
    initState "boom" 0 rfl⟩

/-- C8: when a fresh run of a node settles with an `Err` blaming a different
node, that `Err` is written to the node's own cache, the node's compute was
not invoked during the run, and every later run returns the same `Err` with
the state unchanged. -/
theorem c8_propagated_err_settles_node {E V : Type} {g : Graph E V} {fuel id : Nat}
    {s s' : RunState E V} {nd : Node E V} {e : E} {t : Nat}
    (hg : findNode g id = some nd) (hc : s.cache id = none) (hin : id ∉ s.inflight)
    (hne : t ≠ id)
    (h : run g (fuel + 1) id s = (some (Result.err e t), s')) :
    s'.cache id = some (Result.err e t) ∧
    computeCount id s' = computeCount id s ∧
    ∀ fuel', run g (fuel' + 1) id s' = (some (Result.err e t), s') := by
  refine ⟨run_caches h, ?_, fun fuel' => run_cachedHit g fuel' id (run_caches h)⟩
  rcases run_cases hg hc hin h with ⟨hkl, _⟩ | ⟨args, L, hwrap, _⟩
  · exact keepsLog_computeCount hkl
  · exfalso
    rcases hcp : nd.compute args with e0 | v <;> rw [hcp] at hwrap <;> simp [wrap] at hwrap
    exact hne hwrap.2

/-- Witness for C8: node 1 of the chain settles with node 0's error without
its own compute having run, and keeps returning it. -/
theorem c8_witness :
    (findNode gChain 1 = some (Node.mk "b" [0] dbl) ∧
      run gChain 3 1 initState
        = (some (Result.err "boom" 0), (run gChain 3 1 initState).2)) ∧
    (((run gChain 3 1 initState).2).cache 1 = some (Result.err "boom" 0) ∧
      computeCount 1 ((run gChain 3 1 initState).2)
        = computeCount 1 (initState (E := String) (V := Nat)) ∧
      ∀ fuel', run gChain (fuel' + 1) 1 ((run gChain 3 1 initState).2)
        = (some (Result.err "boom" 0), (run gChain 3 1 initState).2)) :=
  ⟨⟨rfl, rfl⟩,
    @c8_propagated_err_settles_node String Nat gChain 2 1 initState
      ((run gChain 3 1 initState).2) (Node.mk "b" [0] dbl) "boom" 0 rfl rfl
      (by simp [initState]) (by decide) rfl⟩

/-- C9: running an `all` composition of no tasks computes once with no
arguments and settles `Ok` with the empty tuple. -/
theorem c9_all_empty_ok {E : Type} (g : Graph E Val) (lbl : String) (fuel aid : Nat)
    (s : RunState E Val)
    (hg : findNode g aid = some (allNode lbl []))
    (hc : s.cache aid = none) (hin : aid ∉ s.inflight) :
    run g (fuel + 1) aid s =
      (some (Result.ok (Val.list [])), { s with
        inflight := aid :: s.inflight
        cache := fun j => if j = aid then some (Result.ok (Val.list [])) else s.cache j
        log := (aid, [], Result.ok (Val.list [])) :: s.log }) := by
  simp only [run]
  unfold runStep
  split
  next r0 hcc => rw [hc] at hcc; cases hcc
  next hcc =>
    rw [if_neg hin]
    split
    next hgg => rw [hg] at hgg; cases hgg
    next nd0 hgg =>
      rw [hg] at hgg
      injection hgg with hnd
      subst hnd
      split
      next s1 heq =>
        exfalso
        unfold executeTask at heq
        simp [allNode, callCompute] at heq
      next r0 s1 heq =>
        unfold executeTask at heq
        simp only [allNode] at heq
        obtain ⟨e1, e2⟩ := Prod.mk.injEq _ _ _ _ ▸ heq
        injection e1 with e1
        subst e1
        rw [← e2]
        rfl

/-- Witness for C9: `run(all("empty", []))` from the fresh state. -/
theorem c9_witness :
    findNode gAllEmpty 0 = some (allNode "empty" []) ∧
    run gAllEmpty 1 0 initState =
      (some (Result.ok (Val.list [])),
       RunState.mk (fun j => if j = 0 then some (Result.ok (Val.list [])) else none)
         [0] [(0, [], Result.ok (Val.list []))]) :=
  ⟨rfl, c9_all_empty_ok gAllEmpty "empty" 0 0 initState rfl rfl (by simp [initState])⟩

/-- C10: when several dependencies already hold cached `Err`s, the error
returned is deterministically that of the earliest such dependency in the
node's declaration order. -/
theorem c10_earliest_cached_err_wins {E V : Type} {g : Graph E V} {fuel id : Nat}
    {s : RunState E V} {nd : Node E V} (i : Nat) (hi : i < nd.deps.length)
    (r : Result E V)
    (hg : findNode g id = some nd) (hc : s.cache id = none) (hin : id ∉ s.inflight)
    (hr : s.cache (nd.deps.get ⟨i, hi⟩) = some r) (hbad : r.isOk = false)
    (hfirst : ∀ (j : Nat) (hj : j < nd.deps.length), j < i → ∀ r',
      s.cache (nd.deps.get ⟨j, hj⟩) = some r' → r'.isOk = true) :
    (run g (fuel + 1) id s).1 = some r := by
  rw [run_fastpath hg hc hin (firstCachedErr_at s nd.deps i hi r hr hbad hfirst)]

/-- Witness for C10: with both ancestors of `gTwoErr` cached as `Err`, the
dependent returns the first one in declaration order (`"e1"` from node 0). -/
theorem c10_witness :
    (((runSeq gTwoErr [(1, 0), (1, 1)] initState).cache 0 = some (Result.err "e1" 0) ∧
      (runSeq gTwoErr [(1, 0), (1, 1)] initState).cache 1 = some (Result.err "e2" 1)) ∧
      (runSeq gTwoErr [(1, 0), (1, 1)] initState).cache 2 = none ∧
      (2 : Nat) ∉ (runSeq gTwoErr [(1, 0), (1, 1)] initState).inflight) ∧
    (run gTwoErr 1 2 (runSeq gTwoErr [(1, 0), (1, 1)] initState)).1
      = some (Result.err "e1" 0) :=
  ⟨⟨⟨rfl, rfl⟩, rfl, by decide⟩,
    @c10_earliest_cached_err_wins String Nat gTwoErr 0 2
      (runSeq gTwoErr [(1, 0), (1, 1)] initState) (Node.mk "d" [0, 1] add2) 0
      (by decide) (Result.err "e1" 0) rfl rfl (by decide) rfl rfl
      (fun j hj hj0 r' => absurd hj0 (Nat.not_lt_zero j))⟩

/-! ### The depth-first trace -/

theorem findNode_mem {E V : Type} {g : Graph E V} {n : Nat} {nd : Node E V}
    (h : findNode g n = some nd) : (n, nd) ∈ g := by
  simp only [findNode, Option.map_eq_some'] at h
  obtain ⟨p, hp, hp2⟩ := h
  have hmem := List.mem_of_find?_eq_some hp
  have hpr := List.find?_some hp
  simp only [beq_iff_eq] at hpr
  obtain ⟨a, b⟩ := p
  cases hpr
  cases hp2
  exact hmem

theorem findNode_mem_keys {E V : Type} {g : Graph E V} {n : Nat} {nd : Node E V}
    (h : findNode g n = some nd) : n ∈ graphKeys g := by
  have := findNode_mem h
  simp only [graphKeys, List.mem_toFinset, List.mem_map]
  exact ⟨(n, nd), this, rfl⟩

theorem freshCount_cons_lt {E V : Type} {g : Graph E V} {n : Nat} {v : List Nat}
    (hn : n ∈ graphKeys g) (hv : n ∉ v) :
    freshCount g (n :: v) < freshCount g v := by
  apply Finset.card_lt_card
  rw [Finset.ssubset_iff_of_subset]
  · exact ⟨n, by simp [hn, hv], by simp⟩
  · intro x hx
    simp only [Finset.mem_filter, List.mem_cons] at hx ⊢
    exact ⟨hx.1, fun h => hx.2 (Or.inr h)⟩

theorem freshCount_mono {E V : Type} {g : Graph E V} {v v' : List Nat}
    (h : ∀ x ∈ v, x ∈ v') : freshCount g v' ≤ freshCount g v := by
  apply Finset.card_le_card
  intro x hx
  simp only [Finset.mem_filter] at hx ⊢
  exact ⟨hx.1, fun hm => hx.2 (h x hm)⟩

theorem freshCount_nil {E V : Type} (g : Graph E V) :
    freshCount g [] = (graphKeys g).card := by
  simp [freshCount]

theorem reach_snoc {E V : Type} {g : Graph E V} {x t d : Nat}
    (h : Reach g x t) (he : Edge g t d) : Reach g x d := by
  induction h with
  | refl n => exact Reach.step he (Reach.refl d)
  | step e _ ih => exact Reach.step e (ih he)

theorem edge_deps {E V : Type} {g : Graph E V} {t d : Nat} {nd : Node E V}
    (he : Edge g t d) (hfind : findNode g t = some nd) : d ∈ nd.deps := by
  obtain ⟨nd0, h1, h2⟩ := he
  rw [hfind] at h1
  injection h1 with h1
  rw [h1]
  exact h2

theorem topo_closed {E V : Type} {g : Graph E V} {p : List Nat}
    (h : TopoOk g p) : ∀ n ∈ p, ∀ nd, findNode g n = some nd → ∀ d ∈ nd.deps, d ∈ p := by
  intro n hn nd hfind d hd
  obtain ⟨⟨i, hi⟩, hget⟩ := List.mem_iff_get.mp hn
  obtain ⟨j, hj, _, hgj⟩ := h i hi nd (by rw [hget]; exact hfind) d hd
  rw [← hgj]
  exact List.get_mem p j hj

theorem reach_mem_of_topo {E V : Type} {g : Graph E V} {p : List Nat}
    (h : TopoOk g p) {t x : Nat} (hr : Reach g t x) (ht : t ∈ p) : x ∈ p := by
  induction hr with
  | refl n => exact ht
  | step e r ih =>
    obtain ⟨nd, hfind, hd⟩ := e
    exact ih (topo_closed h _ ht nd hfind _ hd)

theorem topo_append {E V : Type} {g : Graph E V} {p : List Nat} {t : Nat}
    {nd : Node E V} (h : TopoOk g p) (hfind : findNode g t = some nd)
    (hdeps : ∀ d ∈ nd.deps, d ∈ p) : TopoOk g (p ++ [t]) := by
  intro i hi nd0 hget d hd
  have hlen : (p ++ [t]).length = p.length + 1 := by simp
  rcases Nat.lt_or_ge i p.length with hcase | hcase
  · have hgi : (p ++ [t]).get ⟨i, hi⟩ = p.get ⟨i, hcase⟩ := by
      simp only [List.get_eq_getElem]
      rw [List.getElem_append_left]
    rw [hgi] at hget
    obtain ⟨j, hj, hji, hgj⟩ := h i hcase nd0 hget d hd
    refine ⟨j, by omega, hji, ?_⟩
    have hgj2 : (p ++ [t]).get ⟨j, by omega⟩ = p.get ⟨j, hj⟩ := by
      simp only [List.get_eq_getElem]
      rw [List.getElem_append_left]
    rw [hgj2, hgj]
  · have hieq : i = p.length := by omega
    have hgi : (p ++ [t]).get ⟨i, hi⟩ = t := by
      subst hieq
      simp only [List.get_eq_getElem]
      rw [List.getElem_append_right] <;> simp
    rw [hgi] at hget
    rw [hfind] at hget
    injection hget with hget
    subst hget
    have hdp := hdeps d hd
    obtain ⟨⟨j, hj⟩, hgj⟩ := List.mem_iff_get.mp hdp
    refine ⟨j, by omega, by omega, ?_⟩
    have hgj2 : (p ++ [t]).get ⟨j, by omega⟩ = p.get ⟨j, hj⟩ := by
      simp only [List.get_eq_getElem]
      rw [List.getElem_append_left]
    rw [hgj2, hgj]

theorem acyclic_of_depsDecreasing {E V : Type} (g : Graph E V)
    (h : DepsDecreasing g) : Acyclic g := by
  have hedge : ∀ n d, Edge g n d → d < n := by
    intro n d ⟨nd, hfind, hd⟩
    exact h (n, nd) (findNode_mem hfind) d hd
  have hreach : ∀ n m, Reach g n m → m ≤ n := by
    intro n m hr
    induction hr with
    | refl n => exact le_refl n
    | step e _ ih => exact le_trans ih (le_of_lt (hedge _ _ e))
  intro n d he hr
  exact absurd (hreach d n hr) (not_le.mpr (hedge n d he))

/-- Full specification of the identity-level depth-first traversal: on a
closed acyclic graph with sufficient fuel, starting from any consistent
visited/path state, the traversal visits exactly the reachable nodes,
completes every node it newly visits, emits every dependency before its
dependent, and preserves the path invariant. -/
theorem traverseIds_spec {E V : Type} (g : Graph E V)
    (hclosed : ClosedGraph g) (hacyc : Acyclic g) :
    ∀ (f t : Nat) (v p : List Nat),
      freshCount g v < f →
      DfsInv g v p →
      (∀ x ∈ v, x ∉ p → Reach g x t) →
      (t ∈ v → t ∈ p) →
      (findNode g t).isSome = true →
      (∀ x ∈ v, x ∈ (traverseIds g f t (v, p)).1) ∧
      (∃ dl, (traverseIds g f t (v, p)).2 = p ++ dl) ∧
      (∀ x ∈ (traverseIds g f t (v, p)).1, x ∉ v → Reach g t x) ∧
      (∀ x ∈ (traverseIds g f t (v, p)).1, x ∉ (traverseIds g f t (v, p)).2 →
        x ∈ v ∧ x ∉ p) ∧
      t ∈ (traverseIds g f t (v, p)).2 ∧
      (∀ x, Reach g t x → x ∈ (traverseIds g f t (v, p)).1) ∧
      (∀ x ∈ v, x ∉ p → x ∉ (traverseIds g f t (v, p)).2) ∧
      DfsInv g (traverseIds g f t (v, p)).1 (traverseIds g f t (v, p)).2 := by
  intro f
  induction f with
  | zero =>
    intro t v p hSUF
    exact absurd hSUF (Nat.not_lt_zero _)
  | succ f ih =>
    have hlist : ∀ (ds : List Nat) (v p : List Nat),
        freshCount g v < f →
        DfsInv g v p →
        (∀ x ∈ v, x ∉ p → ∀ d ∈ ds, Reach g x d) →
        (∀ d ∈ ds, d ∈ v → d ∈ p) →
        (∀ d ∈ ds, (findNode g d).isSome = true) →
        (∀ x ∈ v, x ∈ (traverseListWith (traverseIds g f) ds (v, p)).1) ∧
        (∃ dl, (traverseListWith (traverseIds g f) ds (v, p)).2 = p ++ dl) ∧
        (∀ x ∈ (traverseListWith (traverseIds g f) ds (v, p)).1, x ∉ v →
          ∃ d ∈ ds, Reach g d x) ∧
        (∀ x ∈ (traverseListWith (traverseIds g f) ds (v, p)).1,
          x ∉ (traverseListWith (traverseIds g f) ds (v, p)).2 → x ∈ v ∧ x ∉ p) ∧
        (∀ d ∈ ds, d ∈ (traverseListWith (traverseIds g f) ds (v, p)).2) ∧
        (∀ d ∈ ds, ∀ x, Reach g d x →
          x ∈ (traverseListWith (traverseIds g f) ds (v, p)).1) ∧
        (∀ x ∈ v, x ∉ p → x ∉ (traverseListWith (traverseIds g f) ds (v, p)).2) ∧
        DfsInv g (traverseListWith (traverseIds g f) ds (v, p)).1
          (traverseListWith (traverseIds g f) ds (v, p)).2 := by
      intro ds
      induction ds with
      | nil =>
        intro v p _ hInv _ _ _
        simp only [traverseListWith]
        refine ⟨fun x hx => hx, ⟨[], by simp⟩, fun x hx hnx => absurd hx hnx,
          fun x hx hnp => ⟨hx, hnp⟩, by simp, by simp, fun x _ hxp => hxp, hInv⟩
      | cons d ds ihl =>
        intro v p hSUF hInv hGrayL hCallOkL hPres
        simp only [traverseListWith]
        obtain ⟨Ta1, ⟨dl1, Ta2⟩, Tb, Tc, Tdmem, Te, Tg, Tf⟩ :=
          ih d v p hSUF hInv (fun x hx hp => hGrayL x hx hp d (List.mem_cons_self _ _))
            (hCallOkL d (List.mem_cons_self _ _)) (hPres d (List.mem_cons_self _ _))
        obtain ⟨La1, ⟨dl2, La2⟩, Lb, Lc, Ld, Le, Lg, Lf⟩ :=
          ihl (traverseIds g f d (v, p)).1 (traverseIds g f d (v, p)).2
            (lt_of_le_of_lt (freshCount_mono Ta1) hSUF) Tf
            (fun x hx hp d' hd' =>
              hGrayL x (Tc x hx hp).1 (Tc x hx hp).2 d' (List.mem_cons_of_mem _ hd'))
            (by
              intro d' hd' hdv
              by_cases hdp : d' ∈ (traverseIds g f d (v, p)).2
              · exact hdp
              · rw [Ta2]
                exact List.mem_append_left _
                  (hCallOkL d' (List.mem_cons_of_mem _ hd') (Tc d' hdv hdp).1))
            (fun d' hd' => hPres d' (List.mem_cons_of_mem _ hd'))
        refine ⟨fun x hx => La1 x (Ta1 x hx), ?_, ?_, ?_, ?_, ?_, ?_, Lf⟩
        · exact ⟨dl1 ++ dl2, by rw [La2, Ta2, List.append_assoc]⟩
        · intro x hx hnv
          by_cases hx1 : x ∈ (traverseIds g f d (v, p)).1
          · exact ⟨d, List.mem_cons_self _ _, Tb x hx1 hnv⟩
          · obtain ⟨d', hd', hr⟩ := Lb x hx hx1
            exact ⟨d', List.mem_cons_of_mem _ hd', hr⟩
        · intro x hx hnp
          obtain ⟨h1, h2⟩ := Lc x hx hnp
          exact Tc x h1 h2
        · intro d' hd'
          rcases List.mem_cons.mp hd' with h1 | h1
          · subst h1
            rw [La2]
            exact List.mem_append_left _ Tdmem
          · exact Ld d' h1
        · intro d' hd' x hr
          rcases List.mem_cons.mp hd' with h1 | h1
          · subst h1
            exact La1 x (Te x hr)
          · exact Le d' h1 x hr
        · intro x hx hp
          exact Lg x (Ta1 x hx) (Tg x hx hp)
    intro t v p hSUF hInv hGray hCallOk hpt
    simp only [traverseIds]
    unfold traverseIdsStep
    dsimp only
    by_cases htv : t ∈ v
    · rw [if_pos htv]
      refine ⟨fun x hx => hx, ⟨[], by simp⟩, fun x hx hnx => absurd hx hnx,
        fun x hx hnp => ⟨hx, hnp⟩, hCallOk htv, ?_, fun x _ hxp => hxp, hInv⟩
      intro x hr
      exact hInv.2.1 x (reach_mem_of_topo hInv.2.2.1 hr (hCallOk htv))
    · rw [if_neg htv]
      split
      next hgg => rw [hgg] at hpt; simp at hpt
      next nd hgg =>
        have htp : t ∉ p := fun hh => htv (hInv.2.1 t hh)
        have hSUF1 : freshCount g (t :: v) < f := by
          have h1 := freshCount_cons_lt (findNode_mem_keys hgg) htv
          omega
        have hInv1 : DfsInv g (t :: v) p :=
          ⟨hInv.1, fun x hx => List.mem_cons_of_mem _ (hInv.2.1 x hx),
            hInv.2.2.1, hInv.2.2.2⟩
        have hGrayL1 : ∀ x ∈ t :: v, x ∉ p → ∀ d ∈ nd.deps, Reach g x d := by
          intro x hx hp d hd
          rcases List.mem_cons.mp hx with h1 | h1
          · subst h1
            exact Reach.step ⟨nd, hgg, hd⟩ (Reach.refl d)
          · exact reach_snoc (hGray x h1 hp) ⟨nd, hgg, hd⟩
        have hCallOkL1 : ∀ d ∈ nd.deps, d ∈ t :: v → d ∈ p := by
          intro d hd hdv
          rcases List.mem_cons.mp hdv with h1 | h1
          · rw [h1] at hd
            exact ((hacyc t t ⟨nd, hgg, hd⟩) (Reach.refl t)).elim
          · by_cases hdp : d ∈ p
            · exact hdp
            · exact ((hacyc t d ⟨nd, hgg, hd⟩) (hGray d h1 hdp)).elim
        have hPres1 : ∀ d ∈ nd.deps, (findNode g d).isSome = true := by
          intro d hd
          exact hclosed (t, nd) (findNode_mem hgg) d hd
        obtain ⟨La1, ⟨dl, La2⟩, Lb, Lc, Ld, Le, Lg, Lf⟩ :=
          hlist nd.deps (t :: v) p hSUF1 hInv1 hGrayL1 hCallOkL1 hPres1
        have htq2 : t ∉ (traverseListWith (traverseIds g f) nd.deps (t :: v, p)).2 :=
          Lg t (List.mem_cons_self _ _) htp
        refine ⟨?_, ?_, ?_, ?_, ?_, ?_, ?_, ?_⟩
        · intro x hx
          exact La1 x (List.mem_cons_of_mem _ hx)
        · exact ⟨dl ++ [t], by rw [La2, List.append_assoc]⟩
        · intro x hx hnv
          by_cases hxt : x = t
          · subst hxt
            exact Reach.refl x
          · have hxv1 : x ∉ t :: v := by
              intro hh
              rcases List.mem_cons.mp hh with h1 | h1
              · exact hxt h1
              · exact hnv h1
            obtain ⟨d, hd, hr⟩ := Lb x hx hxv1
            exact Reach.step ⟨nd, hgg, hd⟩ hr
        · intro x hx hnp
          have h1 : x ∉ (traverseListWith (traverseIds g f) nd.deps (t :: v, p)).2 :=
            fun hh => hnp (List.mem_append_left _ hh)
          have h2 : x ≠ t := by
            intro hh
            subst hh
            exact hnp (List.mem_append_right _ (List.mem_singleton.mpr rfl))
          obtain ⟨h3, h4⟩ := Lc x hx h1
          rcases List.mem_cons.mp h3 with h5 | h5
          · exact absurd h5 h2
          · exact ⟨h5, h4⟩
        · exact List.mem_append_right _ (List.mem_singleton.mpr rfl)
        · intro x hr
          cases hr with
          | refl => exact La1 t (List.mem_cons_self _ _)
          | step e r =>
            exact Le _ (edge_deps e hgg) x r
        · intro x hx hp
          intro hcon
          rcases List.mem_append.mp hcon with h1 | h1
          · exact Lg x (List.mem_cons_of_mem _ hx) hp h1
          · rw [List.mem_singleton] at h1
            subst h1
            exact htv hx
        · refine ⟨?_, ?_, ?_, ?_⟩
          · rw [List.nodup_append]
            refine ⟨Lf.1, List.nodup_singleton t, ?_⟩
            intro a ha hb
            rw [List.mem_singleton] at hb
            subst hb
            exact htq2 ha
          · intro x hx
            rcases List.mem_append.mp hx with h1 | h1
            · exact Lf.2.1 x h1
            · rw [List.mem_singleton] at h1
              rw [h1]
              exact La1 t (List.mem_cons_self _ _)
          · exact topo_append Lf.2.2.1 hgg Ld
          · intro x hx
            rcases List.mem_append.mp hx with h1 | h1
            · exact Lf.2.2.2 x h1
            · rw [List.mem_singleton] at h1
              rw [h1, hgg]
              rfl

/-- The label-level traversal of `getTrace` runs in lockstep with the ghost
identity-level traversal: same visited set, and the emitted labels are the
emitted identities mapped through their nodes' labels. -/
theorem traverse_lockstep {E V : Type} (g : Graph E V) :
    ∀ (f t : Nat) (v pI : List Nat),
      traverse g f t (v, pI.map (labelOf g)) =
        ((traverseIds g f t (v, pI)).1,
         ((traverseIds g f t (v, pI)).2).map (labelOf g)) := by
  intro f
  induction f with
  | zero => intro t v pI; rfl
  | succ f ih =>
    have hlist : ∀ (ds : List Nat) (v pI : List Nat),
        traverseListWith (traverse g f) ds (v, pI.map (labelOf g)) =
          ((traverseListWith (traverseIds g f) ds (v, pI)).1,
           ((traverseListWith (traverseIds g f) ds (v, pI)).2).map (labelOf g)) := by
      intro ds
      induction ds with
      | nil => intro v pI; rfl
      | cons d ds ihl =>
        intro v pI
        simp only [traverseListWith]
        rw [ih d v pI]
        exact ihl (traverseIds g f d (v, pI)).1 (traverseIds g f d (v, pI)).2
    intro t v pI
    simp only [traverse, traverseIds]
    unfold traverseStep traverseIdsStep
    dsimp only
    by_cases htv : t ∈ v
    · rw [if_pos htv, if_pos htv]
    · rw [if_neg htv, if_neg htv]
      rcases hfind : findNode g t with _ | nd
      · simp only [hfind]
      · simp only [hfind]
        rw [hlist nd.deps (t :: v) pI]
        simp [labelOf, hfind]

/-- C7: on an acyclic, dependency-closed graph with sufficient fuel,
`getTrace` returns the labels of an identity list that enumerates exactly the
nodes reachable from the root, once each, in topological order (every
dependency before its dependent), ending with the root itself. -/
theorem c7_trace_topological {E V : Type} (g : Graph E V) (root fuel : Nat)
    (hacyc : Acyclic g) (hclosed : ClosedGraph g)
    (hroot : (findNode g root).isSome = true)
    (hfuel : (graphKeys g).card < fuel) :
    ∃ ids : List Nat,
      getTrace g fuel root = ids.map (labelOf g) ∧
      ids.Nodup ∧
      (∀ x, x ∈ ids ↔ Reach g root x) ∧
      TopoOk g ids ∧
      ids.getLast? = some root := by
  have hSUF : freshCount g [] < fuel := by rw [freshCount_nil]; exact hfuel
  have hInv : DfsInv g ([] : List Nat) [] :=
    ⟨List.nodup_nil, by simp, by intro i hi; simp at hi, by simp⟩
  obtain ⟨Ta1, ⟨dl, Ta2⟩, Tb, Tc, Tmem, Te, Tg, Tf⟩ :=
    traverseIds_spec g hclosed hacyc fuel root [] [] hSUF hInv (by simp) (by simp) hroot
  refine ⟨(traverseIds g fuel root ([], [])).2, ?_, Tf.1, ?_, Tf.2.2.1, ?_⟩
  · exact congrArg Prod.snd (traverse_lockstep g fuel root [] [])
  · intro x
    constructor
    · intro hx
      exact Tb x (Tf.2.1 x hx) (by simp)
    · intro hr
      by_cases hxp : x ∈ (traverseIds g fuel root ([], [])).2
      · exact hxp
      · obtain ⟨h1, _⟩ := Tc x (Te x hr) hxp
        simp at h1
  · obtain ⟨nd, hnd⟩ := Option.isSome_iff_exists.mp hroot
    cases fuel with
    | zero => exact absurd hfuel (Nat.not_lt_zero _)
    | succ f =>
      show ((traverseIds g (f + 1) root ([], [])).2).getLast? = some root
      simp only [traverseIds]
      unfold traverseIdsStep
      dsimp only
      rw [if_neg (by simp)]
      simp only [hnd]
      rw [List.getLast?_append_cons]
      rfl

/-- Witness for C7: the diamond with a repeated label `"b"` traces to
`["a", "b", "b", "d"]` — one entry per distinct node, dependencies first,
root last. -/
theorem c7_witness :
    Acyclic gTrace ∧ ClosedGraph gTrace ∧ (findNode gTrace 3).isSome = true ∧
    (graphKeys gTrace).card < 5 ∧
    (∃ ids : List Nat,
      getTrace gTrace 5 3 = ids.map (labelOf gTrace) ∧
      ids.Nodup ∧
      (∀ x, x ∈ ids ↔ Reach gTrace 3 x) ∧
      TopoOk gTrace ids ∧
      ids.getLast? = some 3) :=
  ⟨acyclic_of_depsDecreasing gTrace (by decide), by decide, rfl, by decide,
    c7_trace_topological gTrace 3 5 (acyclic_of_depsDecreasing gTrace (by decide))
      (by decide) rfl (by decide)⟩

end TinyTaskDag
